import Mathlib

/-!
Verification of the balance engine of the expense-sharing repository.

The JavaScript sources are shallowly embedded:
* a JS `Map` (which iterates in insertion order, appends new keys at the
  end, and updates existing keys in place) is modelled as an association
  list `List (String × Int)` with `bget` / `bset` / `hasKey`;
* money amounts are signed integers (`Int`), per the data model
  ("Money amount: signed integer, smallest currency unit");
* percentages (which reach the code as JS numbers) are modelled as
  exact rationals `ℚ`, and JS `Math.round` as `⌊q + 1/2⌋`
  (round-half-up, JS's rule for nonnegative arguments and half toward
  `+∞` in general);
* JS `Math.floor(a / b)` on integers is `Int.fdiv`, JS `%` is the
  truncated remainder `Int.tmod`;
* functions that `throw` are embedded as `Except String _`.
-/

namespace Cred

/-! ## Definitions: the shallow embedding of the source -/

/-- A group's balance map: `userId → net amount`, in insertion order
(the model of the JS `Map` stored per group in `src/data/store.js`). -/
abbrev Balances := List (String × Int)

/-- `map.get(k)`, reading 0 for a missing key (all code paths
initialize a missing key to 0 before reading it). -/
def bget : Balances → String → Int
  | [], _ => 0
  | (k, v) :: rest, u => if k = u then v else bget rest u

/-- `map.set(k, v)`: update the first occurrence in place, or append. -/
def bset : Balances → String → Int → Balances
  | [], k, v => [(k, v)]
  | (k', v') :: rest, k, v =>
      if k' = k then (k, v) :: rest else (k', v') :: bset rest k v

/-- `map.has(k)`. -/
def hasKey (b : Balances) (k : String) : Bool :=
  b.any fun p => p.1 == k

/-- The `if (!balances.has(k)) balances.set(k, 0)` prelude used by
`applyExpense` and `applySettlement` in `src/services/balanceService.js`. -/
def initKey (b : Balances) (k : String) : Balances :=
  if hasKey b k then b else bset b k 0

/-- Sum of all net balances stored in a group's map. -/
def bsum (b : Balances) : Int :=
  (b.map Prod.snd).sum

/-- `applyExpense` (`src/services/balanceService.js`): credit the payer
by the total, then debit each split participant by its amount. -/
def applyExpense (balances : Balances) (paidBy : String) (totalAmount : Int)
    (splits : List (String × Int)) : Balances :=
  let b1 := initKey balances paidBy
  let b2 := bset b1 paidBy (bget b1 paidBy + totalAmount)
  splits.foldl (fun b s =>
    let b' := initKey b s.1
    bset b' s.1 (bget b' s.1 - s.2)) b2

/-- `applySettlement` (`src/services/balanceService.js`): credit `frm`
(they paid), debit `to` (they received). -/
def applySettlement (balances : Balances) (frm toU : String) (amount : Int) :
    Balances :=
  let b1 := initKey balances frm
  let b2 := initKey b1 toU
  let b3 := bset b2 frm (bget b2 frm + amount)
  bset b3 toU (bget b3 toU - amount)

/-- One ledger mutation on a group, as issued by the routes layer. -/
inductive LedgerOp where
  | expense (paidBy : String) (totalAmount : Int) (splits : List (String × Int))
  | settlement (frm toU : String) (amount : Int)

/-- Execute one ledger operation. -/
def applyOp (b : Balances) : LedgerOp → Balances
  | .expense paidBy totalAmount splits => applyExpense b paidBy totalAmount splits
  | .settlement frm toU amount => applySettlement b frm toU amount

/-- Execute a sequence of ledger operations on an initially empty group. -/
def applyOps (ops : List LedgerOp) : Balances :=
  ops.foldl applyOp []

/-- The caller-side precondition of `applyExpense`: the split amounts sum
to the expense's total (guaranteed by the split calculator). -/
def opBalanced : LedgerOp → Prop
  | .expense _ totalAmount splits => (splits.map Prod.snd).sum = totalAmount
  | .settlement _ _ _ => True

/-- JS `Math.round`: round half toward `+∞`. -/
def jsRound (q : ℚ) : Int := ⌊q + 1 / 2⌋

/-- JS `Math.abs` on a rational. -/
def jsAbs (q : ℚ) : ℚ := if q < 0 then -q else q

/-- The body of `participants.map((userId, index) => ({userId, amount:
baseAmount + (index < remainder ? 1 : 0)}))` in `equalSplit`, written as a
recursion carrying the current index. -/
def equalAssign (base rem : Int) : List String → Nat → List (String × Int)
  | [], _ => []
  | u :: rest, idx =>
      (u, base + if (idx : Int) < rem then 1 else 0) ::
        equalAssign base rem rest (idx + 1)

/-- `equalSplit`: divide `totalAmount` equally; `Math.floor(total / n)` is
`Int.fdiv`, JS `%` is `Int.tmod`. -/
def equalSplit (totalAmount : Int) (participants : List String) :
    Except String (List (String × Int)) :=
  if participants.isEmpty then .error "Participants list cannot be empty"
  else
    let n : Int := participants.length
    let baseAmount := Int.fdiv totalAmount n
    let remainder := Int.tmod totalAmount n
    .ok (equalAssign baseAmount remainder participants 0)

/-- `exactSplit`: validate the sum (via `reduce`, i.e. a left fold), reject
negative amounts, and return the input amounts verbatim. -/
def exactSplit (totalAmount : Int) (shares : List (String × Int)) :
    Except String (List (String × Int)) :=
  if shares.isEmpty then .error "Shares list cannot be empty"
  else
    let sum := shares.foldl (fun acc s => acc + s.2) 0
    if sum ≠ totalAmount then .error "Sum of shares must equal total amount"
    else if shares.any (fun s => decide (s.2 < 0)) then
      .error "Share amounts must be non-negative"
    else .ok (shares.map fun s => (s.1, s.2))

/-- The `shares.map((share, index) => ...)` body of `percentageSplit`:
every share except the last gets `Math.round(totalAmount * percent / 100)`
(accumulated into `allocatedAmount`); the last gets
`totalAmount - allocatedAmount`. -/
def percentAlloc (totalAmount : Int) :
    List (String × ℚ) → Int → List (String × Int)
  | [], _ => []
  | [(u, _)], allocated => [(u, totalAmount - allocated)]
  | (u, p) :: s :: rest, allocated =>
      (u, jsRound ((totalAmount : ℚ) * p / 100)) ::
        percentAlloc totalAmount (s :: rest)
          (allocated + jsRound ((totalAmount : ℚ) * p / 100))

/-- `percentageSplit`: validate the percentage sum within the `0.01`
tolerance and the `[0, 100]` range of each percent, then allocate. -/
def percentageSplit (totalAmount : Int) (shares : List (String × ℚ)) :
    Except String (List (String × Int)) :=
  if shares.isEmpty then .error "Shares list cannot be empty"
  else
    let sumPercent := shares.foldl (fun acc s => acc + s.2) 0
    if jsAbs (sumPercent - 100) > 1 / 100 then
      .error "Sum of percentages must equal 100"
    else if shares.any (fun s => decide (s.2 < 0) || decide (s.2 > 100)) then
      .error "Percentages must be between 0 and 100"
    else .ok (percentAlloc totalAmount shares 0)

/-- The participant payload of `splitExpense`; the JS string-tag dispatch
(`'EQUAL' | 'EXACT' | 'PERCENT'`) is modelled by the constructor tag. -/
inductive SplitInput where
  | equal (participants : List String)
  | exact (shares : List (String × Int))
  | percent (shares : List (String × ℚ))

/-- `splitExpense`: dispatch on the split type. -/
def splitExpense (totalAmount : Int) :
    SplitInput → Except String (List (String × Int))
  | .equal ps => equalSplit totalAmount ps
  | .exact sh => exactSplit totalAmount sh
  | .percent sh => percentageSplit totalAmount sh

/-- JS `Math.abs` on an integer. -/
def jsAbsInt (n : Int) : Int := if n < 0 then -n else n

/-- A settling transaction `{from, to, amount}`. -/
structure Txn where
  fromUser : String
  toUser : String
  amount : Int
deriving DecidableEq

/-- The creditor extraction: entries with positive balance, in iteration
(= insertion) order, keeping the balance as the amount. -/
def creditors (balances : Balances) : List (String × Int) :=
  (balances.filter fun p => decide (0 < p.2)).map fun p => (p.1, p.2)

/-- The debtor extraction: entries with negative balance, in iteration
order, with `Math.abs(balance)` as the amount. -/
def debtors (balances : Balances) : List (String × Int) :=
  (balances.filter fun p => decide (p.2 < 0)).map fun p => (p.1, jsAbsInt p.2)

/-- The comparator `(a, b) => b.amount - a.amount`: `a` may precede `b`
when `a.amount ≥ b.amount` (descending by amount). -/
def amtGE (a b : String × Int) : Prop := b.2 ≤ a.2

instance : DecidableRel amtGE := fun a b => inferInstanceAs (Decidable (b.2 ≤ a.2))

instance : IsTotal (String × Int) amtGE := ⟨fun a b => le_total b.2 a.2⟩

instance : IsTrans (String × Int) amtGE := ⟨fun _ _ _ h1 h2 => le_trans h2 h1⟩

/-- JS `Array.prototype.sort` with the descending comparator: a stable
sort, modelled by the (stable) insertion sort. -/
def sortDesc (l : List (String × Int)) : List (String × Int) :=
  l.insertionSort amtGE

/-- The greedy matching loop of `simplifyBalances`: the transaction amount
is `min(creditor.amount, debtor.amount)`; a cursor advances exactly when
its remaining amount hits zero, so the three cases are
`amounts equal` (both advance), `creditor smaller` (creditor advances,
debtor keeps the difference) and `debtor smaller` (symmetric). -/
def matchLoop : List (String × Int) → List (String × Int) → List Txn
  | [], _ => []
  | _ :: _, [] => []
  | (cu, ca) :: cs, (du, da) :: ds =>
      if ca = da then
        Txn.mk du cu ca :: matchLoop cs ds
      else if ca < da then
        Txn.mk du cu ca :: matchLoop cs ((du, da - ca) :: ds)
      else
        Txn.mk du cu da :: matchLoop ((cu, ca - da) :: cs) ds
termination_by cs ds => cs.length + ds.length
decreasing_by
  all_goals simp only [List.length_cons]
  all_goals omega

/-- `simplifyBalances` on a group's balance map. -/
def simplifyBalances (balances : Balances) : List Txn :=
  matchLoop (sortDesc (creditors balances)) (sortDesc (debtors balances))

/-- Applying one settling transaction to the ledger: the payer `fromUser`
is credited (their debt shrinks), the receiver `toUser` is debited — the
exact semantics of `applySettlement`. -/
def applyTxn (b : Balances) (t : Txn) : Balances :=
  applySettlement b t.fromUser t.toUser t.amount

/-- Apply a whole transaction list in order. -/
def applyTxns (b : Balances) (txns : List Txn) : Balances :=
  txns.foldl applyTxn b

/-- Net effect of a transaction list on one user's balance. -/
def txnEffect (txns : List Txn) (u : String) : Int :=
  (txns.map fun t =>
    (if t.fromUser = u then t.amount else 0) -
      (if t.toUser = u then t.amount else 0)).sum

/-- Total amount carried by the entries of `l` keyed by `u`. -/
def keyTotal (l : List (String × Int)) (u : String) : Int :=
  ((l.filter fun p => decide (p.1 = u)).map Prod.snd).sum

/-- `store.balances`: `groupId → balance map`, in insertion order. -/
abbrev Store := List (String × Balances)

/-- `store.balances.has(g)`. -/
def storeHas (s : Store) (g : String) : Bool :=
  s.any fun p => p.1 == g

/-- `store.balances.get(g)`, reading the empty map for a missing group. -/
def storeGetD : Store → String → Balances
  | [], _ => []
  | (k, b) :: rest, g => if k = g then b else storeGetD rest g

/-- `store.balances.set(g, b)`. -/
def storeSet : Store → String → Balances → Store
  | [], g, b => [(g, b)]
  | (k, b') :: rest, g, b =>
      if k = g then (g, b) :: rest else (k, b') :: storeSet rest g b

/-- `store.getGroupBalances(groupId)`: get **or initialize** the group's
balance map; returns the map together with the possibly-updated store. -/
def getGroupBalances (s : Store) (g : String) : Balances × Store :=
  let s' := if storeHas s g then s else storeSet s g []
  (storeGetD s' g, s')

/-- `getNetBalances` (`src/services/balanceService.js`): read the group's
map through `getGroupBalances` and copy its entries into a fresh result. -/
def getNetBalances (s : Store) (g : String) : Balances × Store :=
  let r := getGroupBalances s g
  (r.1.foldl (fun acc p => acc ++ [p]) [], r.2)

/-- `simplifyBalances` as exposed on the store: read the group's map
through `getGroupBalances` and simplify it. -/
def simplifyBalancesStore (s : Store) (g : String) : List Txn × Store :=
  let r := getGroupBalances s g
  (simplifyBalances r.1, r.2)

/-! ## Theorems -/

theorem bget_bset (b : Balances) (k : String) (v : Int) (u : String) :
    bget (bset b k v) u = if k = u then v else bget b u := by
  induction b with
  | nil => simp [bget, bset]
  | cons p rest ih =>
      obtain ⟨k', v'⟩ := p
      simp only [bset]
      by_cases hk : k' = k
      · subst hk
        simp only [if_pos rfl, bget]
        by_cases hu : k' = u <;> simp [bget, hu]
      · simp only [if_neg hk, bget]
        by_cases hu : k' = u
        · subst hu
          have hne : ¬ (k = k') := fun h => hk h.symm
          simp [hne]
        · simp [hu, ih]

theorem bsum_bset (b : Balances) (k : String) (v : Int) :
    bsum (bset b k v) = bsum b - bget b k + v := by
  induction b with
  | nil => simp [bsum, bset, bget]
  | cons p rest ih =>
      obtain ⟨k', v'⟩ := p
      simp only [bset]
      by_cases hk : k' = k
      · subst hk
        simp only [if_pos rfl, bsum, List.map_cons, List.sum_cons, bget]
        simp
        ring
      · simp only [if_neg hk, bsum, List.map_cons, List.sum_cons, bget]
        simp only [bsum] at ih
        rw [ih]
        ring

theorem bget_eq_zero_of_not_hasKey : ∀ {b : Balances} {k : String},
    hasKey b k = false → bget b k = 0 := by
  intro b k
  induction b with
  | nil => intro _; rfl
  | cons p rest ih =>
      intro h
      obtain ⟨k', v'⟩ := p
      simp only [hasKey, List.any_cons, Bool.or_eq_false_iff] at h
      obtain ⟨h1, h2⟩ := h
      have hne : ¬ (k' = k) := by simpa using h1
      simp only [bget, if_neg hne]
      exact ih (by simpa [hasKey] using h2)

theorem bget_initKey (b : Balances) (k u : String) :
    bget (initKey b k) u = bget b u := by
  unfold initKey
  split
  · rfl
  · rename_i h
    rw [bget_bset]
    split
    · rename_i hku
      subst hku
      exact (bget_eq_zero_of_not_hasKey (by simpa using h)).symm
    · rfl

theorem bsum_initKey (b : Balances) (k : String) :
    bsum (initKey b k) = bsum b := by
  unfold initKey
  split
  · rfl
  · rename_i h
    rw [bsum_bset, bget_eq_zero_of_not_hasKey (by simpa using h)]
    ring

theorem bsum_applyExpense (b : Balances) (paidBy : String) (totalAmount : Int)
    (splits : List (String × Int)) :
    bsum (applyExpense b paidBy totalAmount splits)
      = bsum b + totalAmount - (splits.map Prod.snd).sum := by
  unfold applyExpense
  have hstep : ∀ (splits : List (String × Int)) (b0 : Balances),
      bsum (splits.foldl (fun b s =>
        bset (initKey b s.1) s.1 (bget (initKey b s.1) s.1 - s.2)) b0)
        = bsum b0 - (splits.map Prod.snd).sum := by
    intro splits
    induction splits with
    | nil => intro b0; simp
    | cons s rest ih =>
        intro b0
        simp only [List.foldl_cons, List.map_cons, List.sum_cons]
        rw [ih, bsum_bset, bget_initKey, bsum_initKey]
        ring
  simp only []
  rw [hstep, bsum_bset, bget_initKey, bsum_initKey]
  ring

theorem bsum_applySettlement (b : Balances) (frm toU : String) (amount : Int) :
    bsum (applySettlement b frm toU amount) = bsum b := by
  unfold applySettlement
  simp only []
  rw [bsum_bset, bget_bset, bsum_bset, bget_initKey, bget_initKey,
    bsum_initKey, bsum_initKey]
  split <;> ring

theorem bsum_applyOp (b : Balances) (op : LedgerOp) (h : opBalanced op) :
    bsum (applyOp b op) = bsum b := by
  cases op with
  | expense paidBy totalAmount splits =>
      simp only [opBalanced] at h
      simp [applyOp, bsum_applyExpense, h]
  | settlement frm toU amount =>
      simp [applyOp, bsum_applySettlement]

/-- C1. Ledger conservation: starting from an empty group ledger, any
sequence of `applyExpense` calls (each with splits summing to its total)
and `applySettlement` calls leaves the sum of all net balances of the
group at exactly zero. -/
theorem ledger_conservation (ops : List LedgerOp)
    (h : ∀ op ∈ ops, opBalanced op) : bsum (applyOps ops) = 0 := by
  have general : ∀ (ops : List LedgerOp) (b : Balances),
      (∀ op ∈ ops, opBalanced op) →
      bsum (ops.foldl applyOp b) = bsum b := by
    intro ops
    induction ops with
    | nil => intro b _; rfl
    | cons op rest ih =>
        intro b hall
        simp only [List.foldl_cons]
        rw [ih _ (fun o ho => hall o (List.mem_cons_of_mem _ ho)),
          bsum_applyOp _ _ (hall op (List.mem_cons_self _ _))]
  rw [applyOps, general ops [] h]
  rfl

/-- Witness for C1 at a concrete operation sequence. -/
theorem ledger_conservation_witness :
    bsum (applyOps
      [LedgerOp.expense "A" 10 [("B", 4), ("C", 6)],
       LedgerOp.settlement "B" "A" 4]) = 0 :=
  ledger_conservation _ (by
    intro op hop
    simp only [List.mem_cons, List.not_mem_nil, or_false] at hop
    rcases hop with h | h <;> subst h <;> simp [opBalanced])

theorem foldl_add_map_sum {α M : Type} [AddCommMonoid M] (f : α → M) :
    ∀ (l : List α) (a : M),
      l.foldl (fun acc s => acc + f s) a = a + (l.map f).sum := by
  intro l
  induction l with
  | nil => intro a; simp
  | cons x rest ih =>
      intro a
      simp only [List.foldl_cons, List.map_cons, List.sum_cons, ih]
      rw [add_assoc]

/-- C7. EXACT split contract: on a non-empty share list, `exactSplit`
fails exactly when the amounts do not sum to `totalAmount` or some amount
is negative; otherwise it returns the input entries verbatim, in input
order. -/
theorem exactSplit_contract (t : Int) (shares : List (String × Int))
    (hne : shares ≠ []) :
    ((exactSplit t shares = .ok shares) ↔
      ((shares.map Prod.snd).sum = t ∧ ∀ s ∈ shares, 0 ≤ s.2)) ∧
    (∀ res, exactSplit t shares = .ok res → res = shares) ∧
    ((∃ e, exactSplit t shares = .error e) ↔
      ((shares.map Prod.snd).sum ≠ t ∨ ∃ s ∈ shares, s.2 < 0)) := by
  have hempty : shares.isEmpty = false := by
    simpa [List.isEmpty_iff] using hne
  have hmapid : (shares.map fun s => (s.1, s.2)) = shares := by
    simp
  have hsum : shares.foldl (fun acc s => acc + s.2) 0
      = (shares.map Prod.snd).sum := by
    rw [foldl_add_map_sum]
    simp
  have hany : (shares.any fun s => decide (s.2 < 0)) = true ↔
      ∃ s ∈ shares, s.2 < 0 := by
    simp [List.any_eq_true]
  unfold exactSplit
  rw [hempty]
  simp only [Bool.false_eq_true, if_false, hsum]
  by_cases hs : (shares.map Prod.snd).sum = t
  · rw [if_neg (by simp [hs])]
    by_cases hneg : ∃ s ∈ shares, s.2 < 0
    · have : (shares.any fun s => decide (s.2 < 0)) = true := hany.mpr hneg
      rw [if_pos this]
      refine ⟨?_, ?_, ?_⟩
      · constructor
        · intro h; cases h
        · rintro ⟨-, hall⟩
          obtain ⟨s, hsmem, hslt⟩ := hneg
          exact absurd (hall s hsmem) (by omega)
      · intro res h; cases h
      · constructor
        · intro _; right; exact hneg
        · intro _; exact ⟨_, rfl⟩
    · have : (shares.any fun s => decide (s.2 < 0)) = false := by
        rw [← Bool.not_eq_true, hany]
        exact hneg
      rw [this]
      simp only [Bool.false_eq_true, if_false, hmapid]
      refine ⟨?_, ?_, ?_⟩
      · constructor
        · intro _
          refine ⟨hs, fun s hsmem => ?_⟩
          by_contra hlt
          exact hneg ⟨s, hsmem, by omega⟩
        · intro _; trivial
      · intro res h
        injection h with h
        exact h.symm
      · constructor
        · rintro ⟨e, he⟩; cases he
        · rintro (h | h)
          · exact absurd hs h
          · exact absurd h hneg
  · rw [if_pos hs]
    refine ⟨?_, ?_, ?_⟩
    · constructor
      · intro h; cases h
      · rintro ⟨h, -⟩; exact absurd h hs
    · intro res h; cases h
    · exact ⟨fun _ => Or.inl hs, fun _ => ⟨_, rfl⟩⟩

/-- Witness for C7 at a concrete share list. -/
theorem exactSplit_contract_witness :
    exactSplit 30 [("A", 10), ("B", 20)] = .ok [("A", 10), ("B", 20)] :=
  (exactSplit_contract 30 [("A", 10), ("B", 20)] (by decide)).1.mpr
    (by constructor
        · decide
        · intro s hs
          simp only [List.mem_cons, List.not_mem_nil, or_false] at hs
          rcases hs with h | h <;> subst h <;> decide)

theorem equalAssign_getElem (base rem : Int) :
    ∀ (ps : List String) (start i : Nat),
      (equalAssign base rem ps start)[i]? =
        ps[i]?.map fun u =>
          (u, base + if ((start + i : Nat) : Int) < rem then 1 else 0) := by
  intro ps
  induction ps with
  | nil => intro start i; simp [equalAssign]
  | cons u rest ih =>
      intro start i
      cases i with
      | zero => simp [equalAssign]
      | succ j =>
          simp only [equalAssign, List.getElem?_cons_succ, ih (start + 1) j]
          have : start + 1 + j = start + (j + 1) := by omega
          rw [this]

theorem equalAssign_map_fst (base rem : Int) :
    ∀ (ps : List String) (start : Nat),
      (equalAssign base rem ps start).map Prod.fst = ps := by
  intro ps
  induction ps with
  | nil => intro start; rfl
  | cons u rest ih => intro start; simp [equalAssign, ih]

theorem equalAssign_mem (base rem : Int) :
    ∀ (ps : List String) (start : Nat) (p : String × Int),
      p ∈ equalAssign base rem ps start → p.2 = base ∨ p.2 = base + 1 := by
  intro ps
  induction ps with
  | nil => intro start p h; cases h
  | cons u rest ih =>
      intro start p h
      simp only [equalAssign, List.mem_cons] at h
      rcases h with h | h
      · subst h
        split <;> simp
      · exact ih (start + 1) p h

theorem equalAssign_sum (base rem : Int) :
    ∀ (ps : List String) (start : Nat),
      ((equalAssign base rem ps start).map Prod.snd).sum =
        (ps.length : Int) * base +
          max 0 (min (rem - start) (ps.length : Int)) := by
  intro ps
  induction ps with
  | nil => intro start; simp [equalAssign]
  | cons u rest ih =>
      intro start
      simp only [equalAssign, List.map_cons, List.sum_cons, ih (start + 1),
        List.length_cons]
      push_cast
      by_cases h : (start : Int) < rem
      · rw [if_pos h]
        have hm : max 0 (min (rem - ((start : Int) + 1)) (rest.length : Int)) + 1
            = max 0 (min (rem - (start : Int)) ((rest.length : Int) + 1)) := by
          omega
        rw [← hm]
        ring
      · rw [if_neg h]
        have hm : max 0 (min (rem - ((start : Int) + 1)) (rest.length : Int))
            = max 0 (min (rem - (start : Int)) ((rest.length : Int) + 1)) := by
          omega
        rw [← hm]
        ring

/-- C4 counterexample: the claim quantifies over every (signed integer)
`totalAmount`, but at `totalAmount = -1` with two participants the JS
`Math.floor` / truncated-`%` combination gives both participants `-1`,
so the amounts sum to `-2 ≠ -1` and nobody receives `base + 1`. -/
theorem equalSplit_claim_cex :
    equalSplit (-1) ["A", "B"] = .ok [("A", -1), ("B", -1)] ∧
      (([(("A" : String), (-1 : Int)), ("B", -1)].map Prod.snd).sum ≠ (-1 : Int)) := by
  constructor
  · rfl
  · decide

/-- C4 (amended to nonnegative totals). For every `totalAmount ≥ 0` and
non-empty participant list of length `n`, `equalSplit` returns one entry
per participant in input order with `base = ⌊totalAmount / n⌋` and
`remainder = totalAmount mod n`: the first `remainder` participants get
`base + 1`, the rest `base`; the amounts sum exactly to `totalAmount`
and any two amounts differ by at most 1. -/
theorem equalSplit_spec (t : Int) (ps : List String)
    (ht : 0 ≤ t) (hne : ps ≠ []) :
    equalSplit t ps =
      .ok (equalAssign (Int.fdiv t ps.length) (Int.tmod t ps.length) ps 0) ∧
    ∀ res, equalSplit t ps = .ok res →
      res.map Prod.fst = ps ∧
      (∀ i : Nat, res[i]? = ps[i]?.map fun u =>
        (u, Int.fdiv t ps.length +
          if (i : Int) < Int.tmod t ps.length then 1 else 0)) ∧
      (res.map Prod.snd).sum = t ∧
      ∀ x ∈ res, ∀ y ∈ res, x.2 ≤ y.2 + 1 := by
  have hempty : ps.isEmpty = false := by simpa [List.isEmpty_iff] using hne
  have hok : equalSplit t ps =
      .ok (equalAssign (Int.fdiv t ps.length) (Int.tmod t ps.length) ps 0) := by
    unfold equalSplit
    rw [hempty]
    rfl
  refine ⟨hok, ?_⟩
  intro res hres
  rw [hok] at hres
  injection hres with hres
  subst hres
  obtain ⟨m, rfl⟩ : ∃ m : Nat, t = (m : Int) := ⟨t.toNat, (Int.toNat_of_nonneg ht).symm⟩
  have hn : 0 < ps.length := List.length_pos.mpr hne
  have hfdiv : Int.fdiv (m : Int) (ps.length : Int) = ((m / ps.length : Nat) : Int) := by
    rw [Int.fdiv_eq_ediv _ (by exact_mod_cast Nat.zero_le _)]
    exact (Int.ofNat_ediv m ps.length).symm
  have htmod : Int.tmod (m : Int) (ps.length : Int) = ((m % ps.length : Nat) : Int) := by
    rw [Int.tmod_eq_emod (by exact_mod_cast Nat.zero_le _) (by exact_mod_cast Nat.zero_le _)]
    exact (Int.ofNat_emod m ps.length).symm
  refine ⟨equalAssign_map_fst _ _ _ _, ?_, ?_, ?_⟩
  · intro i
    rw [equalAssign_getElem]
    simp
  · rw [equalAssign_sum, hfdiv, htmod]
    have hmod_lt : m % ps.length < ps.length := Nat.mod_lt _ hn
    have hmax : max 0 (min (((m % ps.length : Nat) : Int) - (0 : Nat))
        (ps.length : Int)) = ((m % ps.length : Nat) : Int) := by
      push_cast
      omega
    rw [hmax]
    push_cast
    have := Nat.div_add_mod m ps.length
    have hcast : ((ps.length * (m / ps.length) + m % ps.length : Nat) : Int)
        = (m : Int) := by exact_mod_cast congrArg (Nat.cast : Nat → Int) this
    push_cast at hcast
    linarith
  · intro x hx y hy
    rcases equalAssign_mem _ _ _ _ _ hx with h1 | h1 <;>
      rcases equalAssign_mem _ _ _ _ _ hy with h2 | h2 <;> omega

/-- Witness for C4's amended theorem at `totalAmount = 5`, three
participants. -/
theorem equalSplit_spec_witness :
    (([(("A" : String), (2 : Int)), ("B", 2), ("C", 1)].map Prod.snd).sum
      = (5 : Int)) :=
  ((equalSplit_spec 5 ["A", "B", "C"] (by decide) (by decide)).2
    [("A", 2), ("B", 2), ("C", 1)] (by rfl)).2.2.1

theorem percentAlloc_map_fst (t : Int) :
    ∀ (shares : List (String × ℚ)) (alloc : Int),
      (percentAlloc t shares alloc).map Prod.fst = shares.map Prod.fst := by
  intro shares
  induction shares with
  | nil => intro alloc; rfl
  | cons s rest ih =>
      intro alloc
      obtain ⟨u, p⟩ := s
      cases rest with
      | nil => simp [percentAlloc]
      | cons s' rest' =>
          simp only [percentAlloc, List.map_cons, List.cons.injEq, true_and]
          exact ih _

theorem percentAlloc_ne_nil (t : Int) (shares : List (String × ℚ))
    (alloc : Int) (h : shares ≠ []) : percentAlloc t shares alloc ≠ [] := by
  intro hcontra
  have := percentAlloc_map_fst t shares alloc
  rw [hcontra] at this
  have hlen := congrArg List.length this
  simp at hlen
  exact h (List.eq_nil_of_length_eq_zero hlen.symm)

theorem percentAlloc_sum (t : Int) :
    ∀ (shares : List (String × ℚ)) (alloc : Int), shares ≠ [] →
      ((percentAlloc t shares alloc).map Prod.snd).sum = t - alloc := by
  intro shares
  induction shares with
  | nil => intro alloc h; exact absurd rfl h
  | cons s rest ih =>
      intro alloc _
      obtain ⟨u, p⟩ := s
      cases rest with
      | nil => simp [percentAlloc]
      | cons s' rest' =>
          simp only [percentAlloc, List.map_cons, List.sum_cons,
            ih _ (List.cons_ne_nil s' rest')]
          ring

theorem percentAlloc_dropLast (t : Int) :
    ∀ (shares : List (String × ℚ)) (alloc : Int),
      (percentAlloc t shares alloc).dropLast =
        shares.dropLast.map (fun s => (s.1, jsRound ((t : ℚ) * s.2 / 100))) := by
  intro shares
  induction shares with
  | nil => intro alloc; rfl
  | cons s rest ih =>
      intro alloc
      obtain ⟨u, p⟩ := s
      cases rest with
      | nil => simp [percentAlloc]
      | cons s' rest' =>
          have hne : percentAlloc t (s' :: rest') (alloc + jsRound ((t : ℚ) * p / 100)) ≠ [] :=
            percentAlloc_ne_nil t _ _ (List.cons_ne_nil s' rest')
          simp only [percentAlloc, List.dropLast_cons_of_ne_nil hne,
            List.dropLast_cons_of_ne_nil (List.cons_ne_nil s' rest'),
            List.map_cons, List.cons.injEq, true_and]
          exact ih _

/-- Success of `percentageSplit` when all three validations pass. -/
theorem percentageSplit_eq_ok (t : Int) (shares : List (String × ℚ))
    (hne : shares ≠ [])
    (hrange : ∀ s ∈ shares, 0 ≤ s.2 ∧ s.2 ≤ 100)
    (hsum : jsAbs ((shares.map Prod.snd).sum - 100) ≤ 1 / 100) :
    percentageSplit t shares = .ok (percentAlloc t shares 0) := by
  have hempty : shares.isEmpty = false := by simpa [List.isEmpty_iff] using hne
  have hfold : shares.foldl (fun acc s => acc + s.2) 0
      = (shares.map Prod.snd).sum := by
    rw [foldl_add_map_sum]
    simp
  have hanyfalse : (shares.any fun s => decide (s.2 < 0) || decide (s.2 > 100))
      = false := by
    rw [← Bool.not_eq_true, List.any_eq_true]
    rintro ⟨s, hs, hp⟩
    have hr := hrange s hs
    simp only [Bool.or_eq_true, decide_eq_true_eq] at hp
    rcases hp with hp | hp
    · exact absurd hp (not_lt.mpr hr.1)
    · exact absurd hp (not_lt.mpr hr.2)
  unfold percentageSplit
  rw [hempty]
  simp only [Bool.false_eq_true, if_false, hfold]
  rw [if_neg (not_lt.mpr hsum), hanyfalse]
  simp

/-- C3. PERCENT split conservation: on a non-empty share list with every
percent in `[0, 100]` and the percent sum within `0.01` of `100`,
`percentageSplit` succeeds; every participant except the last receives
`round(totalAmount * percent / 100)`, the last (in input order) receives
`totalAmount` minus the sum already allocated, and the amounts sum exactly
to `totalAmount`. -/
theorem percentageSplit_spec (t : Int) (shares : List (String × ℚ))
    (hne : shares ≠ [])
    (hrange : ∀ s ∈ shares, 0 ≤ s.2 ∧ s.2 ≤ 100)
    (hsum : jsAbs ((shares.map Prod.snd).sum - 100) ≤ 1 / 100) :
    percentageSplit t shares = .ok (percentAlloc t shares 0) ∧
    ∀ res, percentageSplit t shares = .ok res →
      res.map Prod.fst = shares.map Prod.fst ∧
      res.dropLast = shares.dropLast.map
        (fun s => (s.1, jsRound ((t : ℚ) * s.2 / 100))) ∧
      (res.map Prod.snd).sum = t ∧
      ∀ lastEntry, res.getLast? = some lastEntry →
        lastEntry.2 = t - ((res.dropLast.map Prod.snd).sum) := by
  have hok : percentageSplit t shares = .ok (percentAlloc t shares 0) :=
    percentageSplit_eq_ok t shares hne hrange hsum
  refine ⟨hok, ?_⟩
  intro res hres
  rw [hok] at hres
  injection hres with hres
  subst hres
  have hsum0 : ((percentAlloc t shares 0).map Prod.snd).sum = t := by
    rw [percentAlloc_sum t shares 0 hne]
    ring
  refine ⟨percentAlloc_map_fst t shares 0, percentAlloc_dropLast t shares 0,
    hsum0, ?_⟩
  intro lastEntry hlast
  have hresne : percentAlloc t shares 0 ≠ [] := percentAlloc_ne_nil t shares 0 hne
  have hdecomp := List.dropLast_append_getLast hresne
  rw [List.getLast?_eq_getLast _ hresne] at hlast
  injection hlast with hlast
  have := hsum0
  rw [← hdecomp, List.map_append, List.sum_append] at this
  simp only [List.map_cons, List.map_nil, List.sum_cons, List.sum_nil,
    add_zero] at this
  subst hlast
  omega

/-- Witness for C3 at the rounding-prone `total = 100`,
percents `[33, 33, 34]`. -/
theorem percentageSplit_spec_witness :
    (([(("A" : String), (33 : Int)), ("B", 33), ("C", 34)].map Prod.snd).sum
      = (100 : Int)) := by
  have hok : percentageSplit 100 [("A", 33), ("B", 33), ("C", 34)]
      = .ok [("A", 33), ("B", 33), ("C", 34)] := by
    have := (percentageSplit_spec 100 [("A", 33), ("B", 33), ("C", 34)]
      (by decide)
      (by intro s hs
          simp only [List.mem_cons, List.not_mem_nil, or_false] at hs
          rcases hs with h | h | h <;> subst h <;> norm_num)
      (by norm_num [jsAbs])).1
    rw [this]
    simp only [percentAlloc, Except.ok.injEq]
    norm_num [jsRound]
  have := ((percentageSplit_spec 100 [("A", 33), ("B", 33), ("C", 34)]
      (by decide)
      (by intro s hs
          simp only [List.mem_cons, List.not_mem_nil, or_false] at hs
          rcases hs with h | h | h <;> subst h <;> norm_num)
      (by norm_num [jsAbs])).2
    [("A", 33), ("B", 33), ("C", 34)] hok).2.2.1
  exact this

/-- C5 counterexample: `splitExpense` accepts `PERCENT` input
`total = 1`, percents `[50, 50, 0]` (positive total, percents in range,
summing to exactly 100) yet the last participant's owed amount is `-1`,
which is negative. -/
theorem split_nonneg_cex :
    splitExpense 1 (SplitInput.percent [("A", 50), ("B", 50), ("C", 0)]) =
      .ok [("A", 1), ("B", 1), ("C", -1)] ∧ ((-1 : Int) < 0) := by
  refine ⟨?_, by decide⟩
  show percentageSplit 1 [("A", 50), ("B", 50), ("C", 0)] = _
  rw [percentageSplit_eq_ok 1 _ (by decide)
      (by intro s hs
          simp only [List.mem_cons, List.not_mem_nil, or_false] at hs
          rcases hs with h | h | h <;> subst h <;> norm_num)
      (by norm_num [jsAbs])]
  simp only [percentAlloc, Except.ok.injEq]
  norm_num [jsRound]

theorem jsRound_nonneg {q : ℚ} (h : 0 ≤ q) : 0 ≤ jsRound q := by
  unfold jsRound
  rw [show (0 : Int) = ((0 : Int) : Int) from rfl, Int.le_floor]
  push_cast
  linarith

/-- C5 (amended). With positive `totalAmount`, every entry accepted by
`splitExpense` has nonnegative owed amount for the `EQUAL` and `EXACT`
strategies; for `PERCENT` this holds for every entry except possibly the
last one, which absorbs the rounding drift and can be negative. -/
theorem split_entry_nonneg_amended :
    (∀ (t : Int) (ps : List String) (res : List (String × Int)), 0 < t →
        splitExpense t (.equal ps) = .ok res → ∀ p ∈ res, 0 ≤ p.2) ∧
    (∀ (t : Int) (sh : List (String × Int)) (res : List (String × Int)),
        splitExpense t (.exact sh) = .ok res → ∀ p ∈ res, 0 ≤ p.2) ∧
    (∀ (t : Int) (sh : List (String × ℚ)) (res : List (String × Int)), 0 < t →
        splitExpense t (.percent sh) = .ok res →
          ∀ p ∈ res.dropLast, 0 ≤ p.2) := by
  refine ⟨?_, ?_, ?_⟩
  · intro t ps res ht hres p hp
    simp only [splitExpense] at hres
    unfold equalSplit at hres
    cases hps : ps.isEmpty
    · rw [hps] at hres
      simp only [Bool.false_eq_true, if_false] at hres
      injection hres with hres
      subst hres
      have hbase : 0 ≤ Int.fdiv t ps.length := by
        rw [Int.fdiv_eq_ediv _ (by exact_mod_cast Nat.zero_le _)]
        exact Int.ediv_nonneg ht.le (by exact_mod_cast Nat.zero_le _)
      rcases equalAssign_mem _ _ _ _ _ hp with h | h <;> omega
    · rw [hps] at hres
      simp at hres
  · intro t sh res hres p hp
    simp only [splitExpense] at hres
    unfold exactSplit at hres
    simp only [ne_eq] at hres
    split at hres
    · cases hres
    · split at hres
      · cases hres
      · split at hres
        · cases hres
        · rename_i hany
          injection hres with hres
          subst hres
          simp only [List.mem_map] at hp
          obtain ⟨s, hs, rfl⟩ := hp
          by_contra hneg
          exact hany (List.any_eq_true.mpr ⟨s, hs, by
            simp only [decide_eq_true_eq]
            omega⟩)
  · intro t sh res ht hres p hp
    simp only [splitExpense] at hres
    unfold percentageSplit at hres
    simp only [gt_iff_lt] at hres
    split at hres
    · cases hres
    · split at hres
      · cases hres
      · split at hres
        · cases hres
        · rename_i hany
          injection hres with hres
          subst hres
          rw [percentAlloc_dropLast] at hp
          simp only [List.mem_map] at hp
          obtain ⟨s, hs, rfl⟩ := hp
          have hsmem : s ∈ sh := (List.dropLast_sublist sh).subset hs
          have hpct : 0 ≤ s.2 := by
            by_contra hneg
            exact hany (List.any_eq_true.mpr ⟨s, hsmem, by
              simp only [Bool.or_eq_true, decide_eq_true_eq]
              left
              linarith⟩)
          apply jsRound_nonneg
          have htq : (0 : ℚ) ≤ (t : ℚ) := by exact_mod_cast ht.le
          positivity

/-- Witness for C5's amended theorem: the EXACT branch at a concrete
accepted input. -/
theorem split_entry_nonneg_witness :
    (0 : Int) ≤ ((("A", (10 : Int)) : String × Int)).2 :=
  split_entry_nonneg_amended.2.1 10 [("A", 10)] [("A", 10)] rfl
    ("A", 10) (by simp)

theorem matchLoop_length_sub : ∀ cs ds : List (String × Int),
    (matchLoop cs ds).length ≤ cs.length + ds.length - 1 := by
  intro cs ds
  induction cs, ds using matchLoop.induct with
  | case1 ds => simp [matchLoop]
  | case2 c cs => simp [matchLoop]
  | case3 cu cs du da ds ih =>
      simp only [matchLoop, eq_self_iff_true, if_true, List.length_cons]
      omega
  | case4 cu ca cs du da ds hne hlt ih =>
      simp only [matchLoop, if_neg hne, if_pos hlt, List.length_cons]
      simp only [List.length_cons] at ih
      omega
  | case5 cu ca cs du da ds hne hge ih =>
      simp only [matchLoop, if_neg hne, if_neg hge, List.length_cons]
      simp only [List.length_cons] at ih
      omega

theorem creditors_debtors_length (b : Balances) :
    (creditors b).length + (debtors b).length
      = (b.filter fun p => decide (p.2 ≠ 0)).length := by
  induction b with
  | nil => rfl
  | cons p rest ih =>
      obtain ⟨k, v⟩ := p
      simp only [creditors, debtors, List.filter_cons, List.length_map] at *
      rcases lt_trichotomy v 0 with h | h | h
      · rw [if_neg (by simp; omega), if_pos (by simp [h]),
          if_pos (by simp; omega)]
        simp only [List.length_cons]
        omega
      · subst h
        rw [if_neg (by simp), if_neg (by simp), if_neg (by simp)]
        omega
      · rw [if_pos (by simp [h]), if_neg (by simp; omega),
          if_pos (by simp; omega)]
        simp only [List.length_cons]
        omega

/-- C10. Simplifier termination with an iteration bound: the matching
loop terminates (it is a total function of the embedded model) and emits
one transaction per iteration, so the number of iterations is at most the
number of creditors plus the number of debtors. -/
theorem simplify_terminates (balances : Balances) :
    (simplifyBalances balances).length ≤
      (creditors balances).length + (debtors balances).length := by
  unfold simplifyBalances
  have h := matchLoop_length_sub (sortDesc (creditors balances))
    (sortDesc (debtors balances))
  unfold sortDesc at *
  rw [List.length_insertionSort, List.length_insertionSort] at h
  omega

/-- C6. Simplification count bound: if exactly `k` users have nonzero
balance, `simplifyBalances` returns at most `k - 1` transactions. -/
theorem simplify_count_bound (balances : Balances) :
    (simplifyBalances balances).length ≤
      (balances.filter fun p => decide (p.2 ≠ 0)).length - 1 := by
  unfold simplifyBalances
  have h := matchLoop_length_sub (sortDesc (creditors balances))
    (sortDesc (debtors balances))
  unfold sortDesc at *
  rw [List.length_insertionSort, List.length_insertionSort,
    creditors_debtors_length] at h
  exact h

theorem filter_orderedInsert (x : String × Int) (v : Int) :
    ∀ m : List (String × Int),
      (List.orderedInsert amtGE x m).filter (fun p => decide (p.2 = v)) =
        if x.2 = v then
          x :: m.filter (fun p => decide (p.2 = v))
        else m.filter (fun p => decide (p.2 = v)) := by
  intro m
  induction m with
  | nil =>
      by_cases hv : x.2 = v <;>
        simp [List.orderedInsert, List.filter_cons, hv]
  | cons y m' ih =>
      by_cases hxy : amtGE x y
      · rw [List.orderedInsert, if_pos hxy]
        by_cases hv : x.2 = v
        · rw [if_pos hv, List.filter_cons, if_pos (by simp [hv])]
        · rw [if_neg hv, List.filter_cons, if_neg (by simp [hv])]
      · rw [List.orderedInsert, if_neg hxy]
        have hxv : x.2 < y.2 := not_le.mp (by simpa [amtGE] using hxy)
        simp only [List.filter_cons, ih]
        by_cases hyv : y.2 = v
        · by_cases hv : x.2 = v
          · rw [hv] at hxv
            rw [hyv] at hxv
            exact absurd hxv (lt_irrefl v)
          · simp [hyv, hv]
        · by_cases hv : x.2 = v <;> simp [hyv, hv]

theorem sortDesc_stable (l : List (String × Int)) (v : Int) :
    (sortDesc l).filter (fun p => decide (p.2 = v)) =
      l.filter (fun p => decide (p.2 = v)) := by
  unfold sortDesc
  induction l with
  | nil => rfl
  | cons x rest ih =>
      simp only [List.insertionSort]
      rw [filter_orderedInsert]
      by_cases hv : x.2 = v
      · rw [if_pos hv, ih, List.filter_cons, if_pos (by simp [hv])]
      · rw [if_neg hv, ih, List.filter_cons, if_neg (by simp [hv])]

/-- C8. Simplifier determinism and tie-break: `simplifyBalances` is a
function of the balance map alone (two runs coincide), its creditor and
debtor lists are each sorted in descending order of amount (`amtGE`), and
the sort is stable: for every amount value, the entries carrying that
amount appear in their original iteration order. -/
theorem simplify_deterministic (balances : Balances) :
    List.Sorted amtGE (sortDesc (creditors balances)) ∧
    List.Sorted amtGE (sortDesc (debtors balances)) ∧
    (∀ v : Int,
      (sortDesc (creditors balances)).filter (fun p => decide (p.2 = v)) =
        (creditors balances).filter (fun p => decide (p.2 = v))) ∧
    (∀ v : Int,
      (sortDesc (debtors balances)).filter (fun p => decide (p.2 = v)) =
        (debtors balances).filter (fun p => decide (p.2 = v))) ∧
    simplifyBalances balances = simplifyBalances balances :=
  ⟨List.sorted_insertionSort amtGE _, List.sorted_insertionSort amtGE _,
   fun v => sortDesc_stable _ v, fun v => sortDesc_stable _ v, rfl⟩

theorem bget_applySettlement (b : Balances) (f g : String) (a : Int)
    (u : String) :
    bget (applySettlement b f g a) u =
      bget b u + (if f = u then a else 0) - (if g = u then a else 0) := by
  unfold applySettlement
  simp only [bget_bset, bget_initKey]
  by_cases hg : g = u
  · subst hg
    by_cases hf : f = g
    · subst hf
      simp
    · simp [hf]
  · by_cases hf : f = u
    · subst hf
      simp [hg]
    · simp [hg, hf]

theorem txnEffect_cons (t : Txn) (rest : List Txn) (u : String) :
    txnEffect (t :: rest) u =
      ((if t.fromUser = u then t.amount else 0) -
        (if t.toUser = u then t.amount else 0)) + txnEffect rest u := by
  simp [txnEffect]

theorem bget_applyTxns : ∀ (txns : List Txn) (b : Balances) (u : String),
    bget (applyTxns b txns) u = bget b u + txnEffect txns u := by
  intro txns
  induction txns with
  | nil => intro b u; simp [applyTxns, txnEffect]
  | cons t rest ih =>
      intro b u
      simp only [applyTxns, List.foldl_cons]
      have := ih (applyTxn b t) u
      simp only [applyTxns] at this
      rw [this, applyTxn, bget_applySettlement, txnEffect_cons]
      ring

theorem keyTotal_nil (u : String) : keyTotal [] u = 0 := rfl

theorem keyTotal_cons (k : String) (v : Int) (l : List (String × Int))
    (u : String) :
    keyTotal ((k, v) :: l) u = (if k = u then v else 0) + keyTotal l u := by
  unfold keyTotal
  rw [List.filter_cons]
  by_cases h : k = u
  · rw [if_pos (by simp [h]), if_pos h]
    simp
  · rw [if_neg (by simp [h]), if_neg h]
    simp

theorem bsum_cons (k : String) (v : Int) (l : List (String × Int)) :
    bsum ((k, v) :: l) = v + bsum l := by
  simp [bsum]

theorem bsum_nonneg_of_pos : ∀ {l : List (String × Int)},
    (∀ p ∈ l, 0 < p.2) → 0 ≤ bsum l := by
  intro l
  induction l with
  | nil => intro _; simp [bsum]
  | cons p rest ih =>
      intro h
      obtain ⟨k, v⟩ := p
      rw [bsum_cons]
      have h1 := h (k, v) (List.mem_cons_self _ _)
      have h2 := ih fun q hq => h q (List.mem_cons_of_mem _ hq)
      simp only at h1
      omega

theorem eq_nil_of_pos_of_sum_eq_zero {l : List (String × Int)}
    (hpos : ∀ p ∈ l, 0 < p.2) (hsum : bsum l = 0) : l = [] := by
  cases l with
  | nil => rfl
  | cons p rest =>
      exfalso
      obtain ⟨k, v⟩ := p
      rw [bsum_cons] at hsum
      have h1 := hpos (k, v) (List.mem_cons_self _ _)
      have h2 := bsum_nonneg_of_pos fun q hq => hpos q (List.mem_cons_of_mem _ hq)
      simp only at h1
      omega

theorem creditors_cons (k : String) (v : Int) (rest : Balances) :
    creditors ((k, v) :: rest) =
      if 0 < v then (k, v) :: creditors rest else creditors rest := by
  unfold creditors
  rw [List.filter_cons]
  by_cases h : 0 < v
  · rw [if_pos (by simp [h]), if_pos h]
    simp
  · rw [if_neg (by simp [h]), if_neg h]

theorem debtors_cons (k : String) (v : Int) (rest : Balances) :
    debtors ((k, v) :: rest) =
      if v < 0 then (k, -v) :: debtors rest else debtors rest := by
  unfold debtors
  rw [List.filter_cons]
  by_cases h : v < 0
  · rw [if_pos (by simp [h]), if_pos h]
    simp [jsAbsInt, h]
  · rw [if_neg (by simp [h]), if_neg h]

theorem bsum_creditors_sub_debtors : ∀ b : Balances,
    bsum (creditors b) - bsum (debtors b) = bsum b := by
  intro b
  induction b with
  | nil => rfl
  | cons p rest ih =>
      obtain ⟨k, v⟩ := p
      rw [creditors_cons, debtors_cons, bsum_cons]
      rcases lt_trichotomy v 0 with h | h | h
      · rw [if_neg (by omega), if_pos h, bsum_cons]
        omega
      · subst h
        rw [if_neg (by omega), if_neg (by omega)]
        omega
      · rw [if_pos h, if_neg (by omega), bsum_cons]
        omega

theorem matchLoop_effect : ∀ cs ds : List (String × Int),
    (∀ p ∈ cs, 0 < p.2) → (∀ p ∈ ds, 0 < p.2) → bsum cs = bsum ds →
    ∀ u, txnEffect (matchLoop cs ds) u = keyTotal ds u - keyTotal cs u := by
  intro cs ds
  induction cs, ds using matchLoop.induct with
  | case1 ds =>
      intro _ hpos hsum u
      have hnil : ds = [] := eq_nil_of_pos_of_sum_eq_zero hpos (by
        simp [bsum] at hsum ⊢
        omega)
      subst hnil
      simp [matchLoop, txnEffect, keyTotal]
  | case2 head tail =>
      intro hpos _ hsum u
      exfalso
      obtain ⟨k, v⟩ := head
      rw [bsum_cons] at hsum
      have h1 := hpos (k, v) (List.mem_cons_self _ _)
      have h2 := bsum_nonneg_of_pos fun q hq => hpos q (List.mem_cons_of_mem _ hq)
      simp only [bsum, List.map_nil, List.sum_nil] at hsum h2
      simp only at h1
      omega
  | case3 cu cs du da ds ih =>
      intro hposc hposd hsum u
      have h3 : matchLoop ((cu, da) :: cs) ((du, da) :: ds) =
          Txn.mk du cu da :: matchLoop cs ds := by
        simp [matchLoop]
      rw [h3, txnEffect_cons, keyTotal_cons, keyTotal_cons]
      have hsum' : bsum cs = bsum ds := by
        rw [bsum_cons, bsum_cons] at hsum
        omega
      rw [ih (fun p hp => hposc p (List.mem_cons_of_mem _ hp))
            (fun p hp => hposd p (List.mem_cons_of_mem _ hp)) hsum' u]
      by_cases h1 : du = u <;> by_cases h2 : cu = u <;> simp [h1, h2] <;> ring
  | case4 cu ca cs du da ds hne hlt ih =>
      intro hposc hposd hsum u
      have h4 : matchLoop ((cu, ca) :: cs) ((du, da) :: ds) =
          Txn.mk du cu ca :: matchLoop cs ((du, da - ca) :: ds) := by
        simp [matchLoop, hne, hlt]
      rw [h4, txnEffect_cons, keyTotal_cons, keyTotal_cons]
      have hda : 0 < da - ca := by omega
      have hpos' : ∀ p ∈ (du, da - ca) :: ds, 0 < p.2 := by
        intro p hp
        rcases List.mem_cons.mp hp with h | h
        · subst h; simpa using hda
        · exact hposd p (List.mem_cons_of_mem _ h)
      have hsum' : bsum cs = bsum ((du, da - ca) :: ds) := by
        rw [bsum_cons, bsum_cons] at hsum
        rw [bsum_cons]
        omega
      rw [ih (fun p hp => hposc p (List.mem_cons_of_mem _ hp)) hpos' hsum' u,
        keyTotal_cons]
      by_cases h1 : du = u <;> by_cases h2 : cu = u <;> simp [h1, h2] <;> ring
  | case5 cu ca cs du da ds hne hge ih =>
      intro hposc hposd hsum u
      have h5 : matchLoop ((cu, ca) :: cs) ((du, da) :: ds) =
          Txn.mk du cu da :: matchLoop ((cu, ca - da) :: cs) ds := by
        simp [matchLoop, hne, hge]
      rw [h5, txnEffect_cons, keyTotal_cons, keyTotal_cons]
      have hca : 0 < ca - da := by omega
      have hpos' : ∀ p ∈ (cu, ca - da) :: cs, 0 < p.2 := by
        intro p hp
        rcases List.mem_cons.mp hp with h | h
        · subst h; simpa using hca
        · exact hposc p (List.mem_cons_of_mem _ h)
      have hsum' : bsum ((cu, ca - da) :: cs) = bsum ds := by
        rw [bsum_cons, bsum_cons] at hsum
        rw [bsum_cons]
        omega
      rw [ih hpos' (fun p hp => hposd p (List.mem_cons_of_mem _ hp)) hsum' u,
        keyTotal_cons]
      by_cases h1 : du = u <;> by_cases h2 : cu = u <;> simp [h1, h2] <;> ring

theorem keyTotal_eq_zero_of_not_mem : ∀ {l : List (String × Int)} {u : String},
    u ∉ l.map Prod.fst → keyTotal l u = 0 := by
  intro l u
  induction l with
  | nil => intro _; rfl
  | cons p rest ih =>
      intro h
      obtain ⟨k, v⟩ := p
      simp only [List.map_cons, List.mem_cons, not_or] at h
      rw [keyTotal_cons, if_neg (fun he => h.1 he.symm), ih h.2]
      ring

theorem creditors_keys_subset (l : Balances) :
    (creditors l).map Prod.fst ⊆ l.map Prod.fst := by
  intro x hx
  unfold creditors at hx
  simp only [List.map_map, List.mem_map, Function.comp] at hx
  obtain ⟨p, hp, rfl⟩ := hx
  exact List.mem_map_of_mem _ (List.mem_of_mem_filter hp)

theorem debtors_keys_subset (l : Balances) :
    (debtors l).map Prod.fst ⊆ l.map Prod.fst := by
  intro x hx
  unfold debtors at hx
  simp only [List.map_map, List.mem_map, Function.comp] at hx
  obtain ⟨p, hp, rfl⟩ := hx
  exact List.mem_map_of_mem _ (List.mem_of_mem_filter hp)

theorem keyTotal_debtors_sub_creditors : ∀ (b : Balances),
    (b.map Prod.fst).Nodup → ∀ u : String,
    keyTotal (debtors b) u - keyTotal (creditors b) u = - bget b u := by
  intro b
  induction b with
  | nil => intro _ u; simp [debtors, creditors, keyTotal, bget]
  | cons p rest ih =>
      intro hnodup u
      obtain ⟨k, v⟩ := p
      simp only [List.map_cons, List.nodup_cons] at hnodup
      obtain ⟨hknot, hrest⟩ := hnodup
      rw [creditors_cons, debtors_cons]
      by_cases hku : k = u
      · subst hku
        have hc0 : keyTotal (creditors rest) k = 0 :=
          keyTotal_eq_zero_of_not_mem fun hm => hknot (creditors_keys_subset rest hm)
        have hd0 : keyTotal (debtors rest) k = 0 :=
          keyTotal_eq_zero_of_not_mem fun hm => hknot (debtors_keys_subset rest hm)
        rcases lt_trichotomy v 0 with h | h | h
        · rw [if_pos h, if_neg (show ¬ (0 : Int) < v by omega),
            keyTotal_cons, if_pos rfl, hc0, hd0]
          simp [bget]
        · subst h
          rw [if_neg (show ¬ (0 : Int) < (0 : Int) by omega),
            if_neg (show ¬ (0 : Int) < (0 : Int) by omega), hc0, hd0]
          simp [bget]
        · rw [if_neg (show ¬ v < (0 : Int) by omega), if_pos h,
            keyTotal_cons, if_pos rfl, hc0, hd0]
          simp [bget]
      · have hbget : bget ((k, v) :: rest) u = bget rest u := by
          simp [bget, hku]
        rcases lt_trichotomy v 0 with h | h | h
        · rw [if_pos h, if_neg (show ¬ (0 : Int) < v by omega),
            keyTotal_cons, if_neg hku, hbget]
          have := ih hrest u
          omega
        · subst h
          rw [if_neg (show ¬ (0 : Int) < (0 : Int) by omega),
            if_neg (show ¬ (0 : Int) < (0 : Int) by omega), hbget]
          exact ih hrest u
        · rw [if_neg (show ¬ v < (0 : Int) by omega), if_pos h,
            keyTotal_cons, if_neg hku, hbget]
          have := ih hrest u
          omega

theorem keyTotal_perm {l₁ l₂ : List (String × Int)} (h : l₁.Perm l₂)
    (u : String) : keyTotal l₁ u = keyTotal l₂ u := by
  unfold keyTotal
  exact ((h.filter _).map Prod.snd).sum_eq

/-- C2. Simplification correctness: for every balance mapping (distinct
users) whose values sum to zero, applying every transaction returned by
`simplifyBalances` — crediting the `fromUser` who pays, debiting the
`toUser` who receives, exactly as `applySettlement` does — drives every
balance in the mapping to zero. -/
theorem simplify_correct (balances : Balances)
    (hnodup : (balances.map Prod.fst).Nodup)
    (hzero : bsum balances = 0) :
    ∀ u, bget (applyTxns balances (simplifyBalances balances)) u = 0 := by
  intro u
  rw [bget_applyTxns]
  unfold simplifyBalances
  have hpc : List.Perm (sortDesc (creditors balances)) (creditors balances) :=
    List.perm_insertionSort amtGE _
  have hpd : List.Perm (sortDesc (debtors balances)) (debtors balances) :=
    List.perm_insertionSort amtGE _
  have hposc : ∀ p ∈ sortDesc (creditors balances), 0 < p.2 := by
    intro p hp
    have hp' : p ∈ creditors balances := hpc.mem_iff.mp hp
    unfold creditors at hp'
    simp only [List.mem_map] at hp'
    obtain ⟨q, hq, rfl⟩ := hp'
    have := List.of_mem_filter hq
    simpa using this
  have hposd : ∀ p ∈ sortDesc (debtors balances), 0 < p.2 := by
    intro p hp
    have hp' : p ∈ debtors balances := hpd.mem_iff.mp hp
    unfold debtors at hp'
    simp only [List.mem_map] at hp'
    obtain ⟨q, hq, rfl⟩ := hp'
    have hneg := List.of_mem_filter hq
    simp only [decide_eq_true_eq] at hneg
    simp only [jsAbsInt, if_pos hneg]
    omega
  have hsums : bsum (sortDesc (creditors balances))
      = bsum (sortDesc (debtors balances)) := by
    unfold bsum
    rw [(hpc.map Prod.snd).sum_eq, (hpd.map Prod.snd).sum_eq]
    have h2 := bsum_creditors_sub_debtors balances
    have h3 := hzero
    unfold bsum at h2 h3
    omega
  have heff := matchLoop_effect _ _ hposc hposd hsums u
  rw [heff, keyTotal_perm hpc u, keyTotal_perm hpd u]
  have := keyTotal_debtors_sub_creditors balances hnodup u
  omega

/-- Witness for C2 at the concrete balances `A:+3, B:-1, C:-2`. -/
theorem simplify_correct_witness :
    bget (applyTxns [("A", 3), ("B", -1), ("C", -2)]
      (simplifyBalances [("A", 3), ("B", -1), ("C", -2)])) "A" = 0 :=
  simplify_correct [("A", 3), ("B", -1), ("C", -2)] (by decide) (by decide) "A"

theorem foldl_snoc_eq {α : Type} : ∀ (l acc : List α),
    l.foldl (fun a x => a ++ [x]) acc = acc ++ l := by
  intro l
  induction l with
  | nil => intro acc; simp
  | cons x rest ih =>
      intro acc
      simp only [List.foldl_cons, ih]
      simp

theorem storeSet_of_not_has : ∀ {s : Store} {g : String} (b : Balances),
    storeHas s g = false → storeSet s g b = s ++ [(g, b)] := by
  intro s g
  induction s with
  | nil => intro b _; rfl
  | cons p rest ih =>
      intro b h
      obtain ⟨k, v⟩ := p
      simp only [storeHas, List.any_cons, Bool.or_eq_false_iff] at h
      have hne : ¬ (k = g) := by simpa using h.1
      simp only [storeSet, if_neg hne, List.cons_append, List.cons.injEq,
        true_and]
      exact ih b (by simpa [storeHas] using h.2)

theorem storeHas_append_self (s : Store) (g : String) (b : Balances) :
    storeHas (s ++ [(g, b)]) g = true := by
  simp [storeHas, List.any_append]

theorem storeGetD_append_of_has : ∀ {s : Store} {g' : String}
    (l : Store), storeHas s g' = true → storeGetD (s ++ l) g' = storeGetD s g' := by
  intro s g'
  induction s with
  | nil => intro l h; simp [storeHas] at h
  | cons p rest ih =>
      intro l h
      obtain ⟨k, v⟩ := p
      by_cases hk : k = g'
      · simp [storeGetD, hk]
      · simp only [storeHas, List.any_cons, Bool.or_eq_true] at h
        rcases h with h | h
        · exact absurd (by simpa using h) hk
        · simp only [List.cons_append, storeGetD, if_neg hk]
          exact ih l (by simpa [storeHas] using h)

theorem storeGetD_append_self {s : Store} {g : String} (b : Balances)
    (h : storeHas s g = false) : storeGetD (s ++ [(g, b)]) g = b := by
  induction s with
  | nil => simp [storeGetD]
  | cons p rest ih =>
      obtain ⟨k, v⟩ := p
      simp only [storeHas, List.any_cons, Bool.or_eq_false_iff] at h
      have hne : ¬ (k = g) := by simpa using h.1
      simp only [List.cons_append, storeGetD, if_neg hne]
      exact ih (by simpa [storeHas] using h.2)

/-- C9 counterexample: querying the net balances of a group with no
balance map yet **does** mutate the store — `getGroupBalances`
initializes the missing entry, so the set of groups with a balance
mapping changes from `{}` to `{g}`. -/
theorem query_purity_cex :
    (getNetBalances [] "g").2 = [("g", [])] ∧
      ([(("g" : String), ([] : Balances))] : Store) ≠ ([] : Store) := by
  exact ⟨rfl, by simp⟩

/-- C9 (amended). The queries never change an existing group's balance
map: if the group already has a map the store is returned unchanged, and
otherwise the only change is the creation of an empty map for the queried
group; every group that already had a map keeps it verbatim. Repeating
either query without an intervening mutation returns an identical result
and leaves the store untouched. -/
theorem query_purity_amended (s : Store) (g : String) :
    ((getNetBalances s g).2 = if storeHas s g then s else s ++ [(g, [])]) ∧
    ((simplifyBalancesStore s g).2
      = if storeHas s g then s else s ++ [(g, [])]) ∧
    (∀ g', storeHas s g' = true →
      storeGetD (getNetBalances s g).2 g' = storeGetD s g') ∧
    (∀ g', storeHas s g' = true →
      storeGetD (simplifyBalancesStore s g).2 g' = storeGetD s g') ∧
    ((getNetBalances (getNetBalances s g).2 g).1 = (getNetBalances s g).1) ∧
    ((getNetBalances (getNetBalances s g).2 g).2 = (getNetBalances s g).2) ∧
    ((simplifyBalancesStore (simplifyBalancesStore s g).2 g).1
      = (simplifyBalancesStore s g).1) ∧
    ((simplifyBalancesStore (simplifyBalancesStore s g).2 g).2
      = (simplifyBalancesStore s g).2) := by
  by_cases hg : storeHas s g
  · have hgb : getGroupBalances s g = (storeGetD s g, s) := by
      unfold getGroupBalances
      rw [if_pos hg]
    refine ⟨?_, ?_, ?_, ?_, ?_, ?_, ?_, ?_⟩ <;>
      simp [getNetBalances, simplifyBalancesStore, hgb, hg]
  · have hset : storeSet s g [] = s ++ [(g, [])] := storeSet_of_not_has [] (by
      simpa using hg)
    have hgb : getGroupBalances s g = (storeGetD (s ++ [(g, [])]) g, s ++ [(g, [])]) := by
      unfold getGroupBalances
      rw [if_neg hg, hset]
    have hnil : storeGetD (s ++ [(g, [])]) g = [] :=
      storeGetD_append_self [] (by simpa using hg)
    have hhas2 : storeHas (s ++ [(g, [])]) g = true := storeHas_append_self s g []
    have hgb2 : getGroupBalances (s ++ [(g, [])]) g
        = (storeGetD (s ++ [(g, [])]) g, s ++ [(g, [])]) := by
      unfold getGroupBalances
      rw [if_pos hhas2]
    refine ⟨?_, ?_, ?_, ?_, ?_, ?_, ?_, ?_⟩
    · simp [getNetBalances, hgb, hg]
    · simp [simplifyBalancesStore, hgb, hg]
    · intro g' hg'
      simp only [getNetBalances, hgb]
      exact storeGetD_append_of_has _ hg'
    · intro g' hg'
      simp only [simplifyBalancesStore, hgb]
      exact storeGetD_append_of_has _ hg'
    · simp [getNetBalances, hgb, hgb2]
    · simp [getNetBalances, hgb, hgb2]
    · simp [simplifyBalancesStore, hgb, hgb2]
    · simp [simplifyBalancesStore, hgb, hgb2]

/-- Witness for C9's amended theorem at a concrete store holding one
group `h` with user `u`. -/
theorem query_purity_witness :
    storeGetD (getNetBalances [("h", [("u", 5)])] "g").2 "h" =
      [(("u" : String), (5 : Int))] :=
  (query_purity_amended [("h", [("u", 5)])] "g").2.2.1 "h" (by decide)

end Cred

